import Mathlib

/-!
Verification of the aggregation engine of utopian.rocks (src/utopian/app.py).

The statistics functions of app.py are pure transformations of an in-memory
list of contribution records.  They are embedded here as executable Lean
functions:

* Python numbers (scores, payouts) become rationals;
* Python dicts used as insertion-ordered accumulators become association
  lists over String keys, with the setdefault-then-mutate pattern embedded
  as the upsert function;
* collections.Counter becomes an association list of counts in
  first-encounter order;
* the fallible category reducer (whose key normalization can raise
  IndexError) returns an Option, none standing for the raised exception.
-/

/-- A contribution record (app.py treats records as flat dicts; the fields
below are the ones the statistics functions read). -/
structure Contribution where
  status : String
  category : String
  repository : String
  moderator : String
  score : ℚ
  total_payout : ℚ
  total_votes : ℕ
  staff_picked : Bool
  voted_on : Bool
  author : String
  url : String
deriving DecidableEq

/-- Python prefix test on character lists: isPre sub s is true when sub is a
prefix of s. -/
def isPre : List Char → List Char → Bool
  | [], _ => true
  | _ :: _, [] => false
  | a :: su, b :: t => a == b && isPre su t

/-- Python substring containment, sub in s, on character lists. -/
def hasSub (sub : List Char) : List Char → Bool
  | [] => isPre sub []
  | c :: t => isPre sub (c :: t) || hasSub sub t

/-- Python str.split with a non-empty separator: splits on every
non-overlapping occurrence of sep, left to right, keeping empty segments.
(Python raises on an empty separator; app.py only splits on "task-".) -/
def splitList (sep : List Char) : List Char → List (List Char)
  | [] => [[]]
  | c :: t =>
    if sep = [] then [c :: t]
    else if isPre sep (c :: t) then
      [] :: splitList sep (t.drop (sep.length - 1))
    else
      match splitList sep t with
      | [] => [[c]]
      | h :: rest => (c :: h) :: rest
termination_by s => s.length
decreasing_by
  · simp only [List.length_cons]
    have := List.length_drop (sep.length - 1) t
    omega
  · simp [List.length_cons]

/-- Key normalization of the category reducer (app.py lines 170-177):
if "task" occurs in the category the grouping key is element 1 of the split
on "task-" (IndexError, i.e. none, when that element does not exist) and the
record is flagged as a task request; otherwise the category is kept as is. -/
def normalizeCategory (category : String) : Option (String × Bool) :=
  if hasSub "task".data category.data then
    match splitList "task-".data category.data with
    | _ :: second :: _ => some (String.mk second, true)
    | _ => none
  else
    some (category, false)

/-- app.py average (lines 104-111): statistics.mean, with any exception
(in particular the empty-input StatisticsError) turned into 0. -/
def average (score : List ℚ) : ℚ :=
  if score.isEmpty then 0 else score.sum / score.length

/-- app.py percentage (lines 114-121): 100.0 * voted / reviewed, with
ZeroDivisionError turned into 100.0. -/
def percentage (reviewed voted : ℚ) : ℚ :=
  if reviewed = 0 then 100 else 100 * voted / reviewed

/-- The dict setdefault-then-mutate pattern of all three reducers: update the
first entry holding key k with f, or append (k, f d) at the end when k is
absent (Python dicts preserve insertion order). -/
def upsert {V : Type} (k : String) (d : V) (f : V → V) :
    List (String × V) → List (String × V)
  | [] => [(k, f d)]
  | (k', v) :: t =>
    if k' == k then (k', f v) :: t else (k', v) :: upsert k d f t

/-- One grouping loop: keyf yields, per element, the grouping key and the
accumulator update (none = the element is skipped). -/
def foldUpsert {α V : Type} (keyf : α → Option (String × (V → V))) (d : V) :
    List (String × V) → List α → List (String × V)
  | acc, [] => acc
  | acc, a :: l =>
    match keyf a with
    | none => foldUpsert keyf d acc l
    | some (k, f) => foldUpsert keyf d (upsert k d f acc) l

/-- A grouping loop that can fail: keyf yields none when the loop raises
(the IndexError of the category reducer), some none when skipped. -/
def foldUpsertE {α V : Type}
    (keyf : α → Option (Option (String × (V → V)))) (d : V) :
    List (String × V) → List α → Option (List (String × V))
  | acc, [] => some acc
  | acc, a :: l =>
    match keyf a with
    | none => none
    | some none => foldUpsertE keyf d acc l
    | some (some (k, f)) => foldUpsertE keyf d (upsert k d f acc) l

/-- collections.Counter of a list of strings: counts in first-encounter
order. -/
def counter (l : List String) : List (String × ℕ) :=
  foldUpsert (fun x => some (x, (· + 1))) 0 [] l

/-- Per-moderator accumulator (app.py lines 139-149). -/
structure ModAcc where
  category : List String := []
  average_score : List ℚ := []
deriving DecidableEq

/-- Finalized per-moderator bucket (app.py lines 151-156). -/
structure ModBucket where
  moderator : String
  category : List (String × ℕ)
  average_score : ℚ
deriving DecidableEq

/-- Skip/group/update decision of the moderator loop body
(app.py lines 129-149). -/
def modKey (c : Contribution) : Option (String × (ModAcc → ModAcc)) :=
  if c.status == "unreviewed" then none
  else if c.moderator == "BANNED" then none
  else some (c.moderator, fun v =>
    { v with category := v.category ++ [c.category],
             average_score := v.average_score ++ [c.score] })

/-- app.py moderator_statistics (lines 124-158); the returned list is the
value of the "moderators" key of the returned dict. -/
def moderator_statistics (contributions : List Contribution) : List ModBucket :=
  (foldUpsert modKey {} [] contributions).map
    (fun p => { moderator := p.1, category := counter p.2.category,
                average_score := average p.2.average_score })

/-- Shared accumulator shape of the category and project reducers
(app.py lines 180-192 and 237-249). -/
structure StatsAcc where
  average_score : List ℚ := []
  voted : ℕ := 0
  not_voted : ℕ := 0
  unvoted : ℕ := 0
  task_requests : ℕ := 0
  moderators : List String := []
  total_payout : ℚ := 0
deriving DecidableEq

/-- The per-record accumulator update duplicated verbatim in the category and
project loop bodies (app.py lines 194-210 and 251-267); t is the task-request
flag (is_task in the category loop, the raw substring test in the project
loop). -/
def statsUpdate (c : Contribution) (t : Bool) (v : StatsAcc) : StatsAcc :=
  let v :=
    if c.status == "unvoted" then
      { v with unvoted := v.unvoted + 1, not_voted := v.not_voted + 1 }
    else if c.voted_on then
      { v with voted := v.voted + 1 }
    else
      { v with not_voted := v.not_voted + 1 }
  let v := if t then { v with task_requests := v.task_requests + 1 } else v
  { v with moderators := v.moderators ++ [c.moderator],
           average_score := v.average_score ++ [c.score],
           total_payout := v.total_payout + c.total_payout }

/-- Finalized per-category bucket (app.py lines 212-220); the dict key
"task-requests" is the field task_requests. -/
structure CatBucket where
  category : String
  average_score : ℚ
  voted : ℕ
  not_voted : ℕ
  unvoted : ℕ
  task_requests : ℕ
  moderators : List (String × ℕ)
  total_payout : ℚ
  reviewed : ℕ
  average_payout : ℚ
  pct_voted : ℚ
deriving DecidableEq

/-- Skip/fail/group/update decision of the category loop body
(app.py lines 166-210): none embeds the IndexError raised by the
key-normalization split. -/
def catKey (c : Contribution) :
    Option (Option (String × (StatsAcc → StatsAcc))) :=
  if c.status == "unreviewed" then some none
  else
    match normalizeCategory c.category with
    | none => none
    | some (k, t) => some (some (k, statsUpdate c t))

/-- Finalization of one category bucket (app.py lines 213-220).  The
average_payout division is the unguarded division of line 218: its Python
ZeroDivisionError case is the divisor being 0 (theorem c3 shows the divisor
is never 0, so rational division agrees with Python here). -/
def finalizeCat (p : String × StatsAcc) : CatBucket :=
  { category := p.1
    voted := p.2.voted
    not_voted := p.2.not_voted
    unvoted := p.2.unvoted
    task_requests := p.2.task_requests
    total_payout := p.2.total_payout
    reviewed := p.2.voted + p.2.not_voted
    average_score := average p.2.average_score
    moderators := counter p.2.moderators
    average_payout := p.2.total_payout / ((p.2.voted + p.2.not_voted : ℕ) : ℚ)
    pct_voted := percentage ((p.2.voted + p.2.not_voted : ℕ) : ℚ) p.2.voted }

/-- app.py category_statistics (lines 161-222); none embeds an uncaught
IndexError, and the returned list is the value of the "categories" key. -/
def category_statistics (contributions : List Contribution) :
    Option (List CatBucket) :=
  (foldUpsertE catKey {} [] contributions).map (List.map finalizeCat)

/-- Finalized per-project bucket (app.py lines 269-277). -/
structure ProjBucket where
  project : String
  average_score : ℚ
  voted : ℕ
  not_voted : ℕ
  unvoted : ℕ
  task_requests : ℕ
  moderators : List (String × ℕ)
  total_payout : ℚ
  reviewed : ℕ
  average_payout : ℚ
  pct_voted : ℚ
deriving DecidableEq

/-- Skip/group/update decision of the project loop body
(app.py lines 230-267): keyed on repository, task flag from the raw
substring test on the category. -/
def projKey (c : Contribution) : Option (String × (StatsAcc → StatsAcc)) :=
  if c.status == "unreviewed" then none
  else some (c.repository, statsUpdate c (hasSub "task".data c.category.data))

/-- Finalization of one project bucket (app.py lines 270-277). -/
def finalizeProj (p : String × StatsAcc) : ProjBucket :=
  { project := p.1
    voted := p.2.voted
    not_voted := p.2.not_voted
    unvoted := p.2.unvoted
    task_requests := p.2.task_requests
    total_payout := p.2.total_payout
    reviewed := p.2.voted + p.2.not_voted
    average_score := average p.2.average_score
    moderators := counter p.2.moderators
    average_payout := p.2.total_payout / ((p.2.voted + p.2.not_voted : ℕ) : ℚ)
    pct_voted := percentage ((p.2.voted + p.2.not_voted : ℕ) : ℚ) p.2.voted }

/-- app.py project_statistics (lines 225-279); the returned list is the value
of the "projects" key. -/
def project_statistics (contributions : List Contribution) : List ProjBucket :=
  (foldUpsert projKey {} [] contributions).map finalizeProj

/-- app.py staff_pick_statistics (lines 282-294); the returned list is the
value of the "staff_picks" key. -/
def staff_pick_statistics (contributions : List Contribution) :
    List Contribution :=
  contributions.foldl
    (fun acc c => if c.staff_picked then acc ++ [c] else acc) []

/-- app.py task_request_statistics (lines 297-307); the returned list is the
value of the "task_requests" key. -/
def task_request_statistics (contributions : List Contribution) :
    List Contribution :=
  contributions.foldl
    (fun acc c => if hasSub "task".data c.category.data then acc ++ [c] else acc)
    []

/-! ### Generic lemmas about the grouping loops -/

/-- Selection predicate of a grouping loop for a fixed key. -/
def selOf {α V : Type} (keyf : α → Option (String × (V → V))) (k : String)
    (a : α) : Bool :=
  match keyf a with
  | some (k', _) => k' == k
  | none => false

/-- Accumulator update contributed by one element. -/
def updOf {α V : Type} (keyf : α → Option (String × (V → V))) (a : α)
    (v : V) : V :=
  match keyf a with
  | some (_, f) => f v
  | none => v

/-- The net effect of a grouping loop on the accumulator of a fixed key. -/
def applyAll {α V : Type} (keyf : α → Option (String × (V → V)))
    (k : String) (v : V) (l : List α) : V :=
  (l.filter (selOf keyf k)).foldl (fun v a => updOf keyf a v) v

/-- The category loop body seen as a total key function: failing records are
treated as skipped.  Meaningful for runs of the loop that did not raise. -/
def catKeyJ (c : Contribution) : Option (String × (StatsAcc → StatsAcc)) :=
  (catKey c).join

/-- The task-request flag the category loop computes for a record. -/
def catFlag (c : Contribution) : Bool :=
  match normalizeCategory c.category with
  | some (_, t) => t
  | none => false

/-- The task-request flag the project loop computes for a record
(raw substring test, app.py line 261). -/
def projFlag (c : Contribution) : Bool :=
  hasSub "task".data c.category.data

/-- A concrete well-formed record used by the concrete test cases below. -/
def baseC : Contribution :=
  { status := "reviewed", category := "c1", repository := "repo",
    moderator := "B", score := 8, total_payout := 10, total_votes := 0,
    staff_picked := false, voted_on := true, author := "a", url := "u" }

/-- The unreviewed record of the moderator example of the spec. -/
def modEx1 : Contribution := { baseC with status := "unreviewed", moderator := "A" }

/-- The banned-moderator record of the moderator example of the spec. -/
def modEx2 : Contribution := { baseC with moderator := "BANNED", score := 5 }

/-- A reviewed task-request record (the spec example category). -/
def cTaskDev : Contribution := { baseC with category := "task-dev" }

/-- An unreviewed task-request record. -/
def taskEx : Contribution := { baseC with status := "unreviewed", category := "task-ideas" }

/-- A reviewed record of a banned moderator. -/
def bannedEx : Contribution := { baseC with moderator := "BANNED" }

/-- A record with the unvoted status. -/
def unvEx : Contribution := { baseC with status := "unvoted" }

theorem applyAll_nil {α V : Type} (keyf : α → Option (String × (V → V)))
    (k : String) (v : V) : applyAll keyf k v [] = v := rfl

theorem applyAll_cons_true {α V : Type}
    (keyf : α → Option (String × (V → V))) (k : String) (v : V)
    (a : α) (l : List α) (h : selOf keyf k a = true) :
    applyAll keyf k v (a :: l) = applyAll keyf k (updOf keyf a v) l := by
  simp [applyAll, h]

theorem applyAll_cons_false {α V : Type}
    (keyf : α → Option (String × (V → V))) (k : String) (v : V)
    (a : α) (l : List α) (h : selOf keyf k a = false) :
    applyAll keyf k v (a :: l) = applyAll keyf k v l := by
  simp [applyAll, h]

theorem upsert_filter_ne {V : Type} (k₀ k : String) (d : V) (f : V → V)
    (hne : (k₀ == k) = false) (l : List (String × V)) :
    (upsert k₀ d f l).filter (fun p => p.1 == k) =
      l.filter (fun p => p.1 == k) := by
  induction l with
  | nil => simp [upsert, hne]
  | cons hd t ih =>
    obtain ⟨k₁, v₁⟩ := hd
    by_cases h : (k₁ == k₀)
    · have : (k₁ == k) = false := by
        have := eq_of_beq h
        subst this
        exact hne
      simp [upsert, h, this]
    · simp only [upsert, Bool.if_false_left]
      rw [if_neg (by simp_all)]
      by_cases h2 : (k₁ == k)
      · simp [h2, ih]
      · simp only [List.filter_cons]
        rw [if_neg (by simp_all), if_neg (by simp_all)]
        exact ih

theorem upsert_filter_nil {V : Type} (k : String) (d : V) (f : V → V)
    (l : List (String × V)) (h : l.filter (fun p => p.1 == k) = []) :
    (upsert k d f l).filter (fun p => p.1 == k) = [(k, f d)] := by
  induction l with
  | nil => simp [upsert]
  | cons hd t ih =>
    obtain ⟨k₁, v₁⟩ := hd
    simp only [List.filter_cons] at h
    by_cases h1 : (k₁ == k)
    · simp [h1] at h
    · simp only [h1] at h
      simp only [upsert, if_neg (by simp_all : ¬ (k₁ == k) = true)]
      simp only [List.filter_cons, h1]
      simpa using ih (by simpa using h)

theorem upsert_filter_cons {V : Type} (k : String) (d : V) (f : V → V)
    (l : List (String × V)) (k' : String) (v : V) (rest : List (String × V))
    (h : l.filter (fun p => p.1 == k) = (k', v) :: rest) :
    (upsert k d f l).filter (fun p => p.1 == k) = (k', f v) :: rest := by
  induction l with
  | nil => simp at h
  | cons hd t ih =>
    obtain ⟨k₁, v₁⟩ := hd
    simp only [List.filter_cons] at h
    by_cases h1 : (k₁ == k)
    · simp only [h1, if_pos rfl] at h
      obtain ⟨⟨hk, hv⟩, hrest⟩ : (k₁ = k' ∧ v₁ = v) ∧
          t.filter (fun p => p.1 == k) = rest := by
        constructor
        · constructor
          · exact congrArg Prod.fst (List.head_eq_of_cons_eq h)
          · exact congrArg Prod.snd (List.head_eq_of_cons_eq h)
        · exact List.tail_eq_of_cons_eq h
      subst hk hv
      simp [upsert, h1, List.filter_cons, hrest]
    · simp only [h1] at h
      simp only [upsert, if_neg (by simp_all : ¬ (k₁ == k) = true)]
      simp only [List.filter_cons, h1]
      simpa using ih (by simpa using h)

theorem foldUpsert_filter_cons {α V : Type}
    (keyf : α → Option (String × (V → V))) (d : V) :
    ∀ (l : List α) (acc : List (String × V)) (k k' : String) (v : V)
      (rest : List (String × V)),
      acc.filter (fun p => p.1 == k) = (k', v) :: rest →
      (foldUpsert keyf d acc l).filter (fun p => p.1 == k) =
        (k', applyAll keyf k v l) :: rest := by
  intro l
  induction l with
  | nil => intro acc k k' v rest h; simpa [foldUpsert, applyAll_nil] using h
  | cons a t ih =>
    intro acc k k' v rest h
    rcases hk : keyf a with _ | ⟨k₀, f⟩
    · have hsel : selOf keyf k a = false := by simp [selOf, hk]
      rw [show foldUpsert keyf d acc (a :: t) = foldUpsert keyf d acc t by
            simp [foldUpsert, hk],
          applyAll_cons_false keyf k v a t hsel]
      exact ih acc k k' v rest h
    · rw [show foldUpsert keyf d acc (a :: t)
            = foldUpsert keyf d (upsert k₀ d f acc) t by simp [foldUpsert, hk]]
      by_cases hkk : (k₀ == k)
      · have hsel : selOf keyf k a = true := by simp [selOf, hk, hkk]
        have hk₀ : k₀ = k := eq_of_beq hkk
        subst hk₀
        have hupd : updOf keyf a v = f v := by simp [updOf, hk]
        rw [applyAll_cons_true keyf k₀ v a t hsel, hupd]
        exact ih _ k₀ k' (f v) rest (upsert_filter_cons k₀ d f acc k' v rest h)
      · have hsel : selOf keyf k a = false := by
          simp [selOf, hk]
          simpa using hkk
        rw [applyAll_cons_false keyf k v a t hsel]
        exact ih _ k k' v rest
          (by rw [upsert_filter_ne k₀ k d f (by simpa using hkk) acc]; exact h)

theorem foldUpsert_filter_nil {α V : Type}
    (keyf : α → Option (String × (V → V))) (d : V) :
    ∀ (l : List α) (acc : List (String × V)) (k : String),
      acc.filter (fun p => p.1 == k) = [] →
      (foldUpsert keyf d acc l).filter (fun p => p.1 == k) =
        if (l.filter (selOf keyf k)).isEmpty then []
        else [(k, applyAll keyf k d l)] := by
  intro l
  induction l with
  | nil => intro acc k h; simpa [foldUpsert] using h
  | cons a t ih =>
    intro acc k h
    rcases hk : keyf a with _ | ⟨k₀, f⟩
    · have hsel : selOf keyf k a = false := by simp [selOf, hk]
      rw [show foldUpsert keyf d acc (a :: t) = foldUpsert keyf d acc t by
            simp [foldUpsert, hk]]
      rw [List.filter_cons_of_neg (by simp [hsel]),
          applyAll_cons_false keyf k d a t hsel]
      exact ih acc k h
    · rw [show foldUpsert keyf d acc (a :: t)
            = foldUpsert keyf d (upsert k₀ d f acc) t by simp [foldUpsert, hk]]
      by_cases hkk : (k₀ == k)
      · have hsel : selOf keyf k a = true := by simp [selOf, hk, hkk]
        have hk₀ : k₀ = k := eq_of_beq hkk
        subst hk₀
        have hupd : updOf keyf a d = f d := by simp [updOf, hk]
        rw [List.filter_cons_of_pos (by simp [hsel])]
        simp only [List.isEmpty_cons, Bool.false_eq_true, if_false]
        rw [applyAll_cons_true keyf k₀ d a t hsel, hupd]
        exact foldUpsert_filter_cons keyf d t _ k₀ k₀ (f d) []
          (upsert_filter_nil k₀ d f acc h)
      · have hsel : selOf keyf k a = false := by
          simp [selOf, hk]
          simpa using hkk
        rw [List.filter_cons_of_neg (by simp [hsel]),
            applyAll_cons_false keyf k d a t hsel]
        exact ih _ k
          (by rw [upsert_filter_ne k₀ k d f (by simpa using hkk) acc]; exact h)

theorem foldUpsertE_some {α V : Type}
    (keyf : α → Option (Option (String × (V → V)))) (d : V) :
    ∀ (l : List α) (acc : List (String × V)) (out : List (String × V)),
      foldUpsertE keyf d acc l = some out →
      out = foldUpsert (fun a => (keyf a).join) d acc l := by
  intro l
  induction l with
  | nil => intro acc out h; simp [foldUpsertE] at h; simp [foldUpsert, h]
  | cons a t ih =>
    intro acc out h
    rcases hk : keyf a with _ | _ | ⟨k, f⟩
    · rw [show foldUpsertE keyf d acc (a :: t) = none by simp [foldUpsertE, hk]]
        at h
      exact absurd h (by simp)
    · rw [show foldUpsertE keyf d acc (a :: t) = foldUpsertE keyf d acc t by
            simp [foldUpsertE, hk]] at h
      rw [show foldUpsert (fun a => (keyf a).join) d acc (a :: t)
            = foldUpsert (fun a => (keyf a).join) d acc t by
            simp [foldUpsert, hk]]
      exact ih acc out h
    · rw [show foldUpsertE keyf d acc (a :: t)
            = foldUpsertE keyf d (upsert k d f acc) t by simp [foldUpsertE, hk]]
        at h
      rw [show foldUpsert (fun a => (keyf a).join) d acc (a :: t)
            = foldUpsert (fun a => (keyf a).join) d (upsert k d f acc) t by
            simp [foldUpsert, hk]]
      exact ih _ out h

theorem foldUpsertE_some_nofail {α V : Type}
    (keyf : α → Option (Option (String × (V → V)))) (d : V) :
    ∀ (l : List α) (acc : List (String × V)) (out : List (String × V)),
      foldUpsertE keyf d acc l = some out → ∀ a ∈ l, keyf a ≠ none := by
  intro l
  induction l with
  | nil => intro acc out _ a ha; exact absurd ha (by simp)
  | cons a t ih =>
    intro acc out h b hb
    rcases hk : keyf a with _ | _ | ⟨k, f⟩
    · rw [show foldUpsertE keyf d acc (a :: t) = none by simp [foldUpsertE, hk]]
        at h
      exact absurd h (by simp)
    · rw [show foldUpsertE keyf d acc (a :: t) = foldUpsertE keyf d acc t by
            simp [foldUpsertE, hk]] at h
      rcases List.mem_cons.mp hb with hb | hb
      · subst hb; simp [hk]
      · exact ih acc out h b hb
    · rw [show foldUpsertE keyf d acc (a :: t)
            = foldUpsertE keyf d (upsert k d f acc) t by simp [foldUpsertE, hk]]
        at h
      rcases List.mem_cons.mp hb with hb | hb
      · subst hb; simp [hk]
      · exact ih _ out h b hb

/-! ### Per-field accumulation lemmas -/

theorem foldl_field_add {A γ M : Type} [AddMonoid M] (g : γ → A → A)
    (φ : A → M) (w : γ → M) :
    ∀ (rel : List γ) (v : A), (∀ c ∈ rel, ∀ x, φ (g c x) = φ x + w c) →
      φ (rel.foldl (fun v c => g c v) v) = φ v + (rel.map w).sum := by
  intro rel
  induction rel with
  | nil => intro v _; simp
  | cons c t ih =>
    intro v hstep
    rw [List.foldl_cons]
    rw [ih (g c v) (fun c' hc' x => hstep c' (List.mem_cons_of_mem c hc') x)]
    rw [hstep c (List.mem_cons_self c t) v]
    simp [add_assoc]

theorem foldl_field_snoc {A γ β : Type} (g : γ → A → A)
    (φ : A → List β) (w : γ → β) :
    ∀ (rel : List γ) (v : A), (∀ c ∈ rel, ∀ x, φ (g c x) = φ x ++ [w c]) →
      φ (rel.foldl (fun v c => g c v) v) = φ v ++ rel.map w := by
  intro rel
  induction rel with
  | nil => intro v _; simp
  | cons c t ih =>
    intro v hstep
    rw [List.foldl_cons]
    rw [ih (g c v) (fun c' hc' x => hstep c' (List.mem_cons_of_mem c hc') x)]
    rw [hstep c (List.mem_cons_self c t) v]
    simp

theorem sum_map_ite_eq_countP {γ : Type} (p : γ → Bool) :
    ∀ l : List γ, (l.map (fun c => if p c then (1 : ℕ) else 0)).sum
      = l.countP p := by
  intro l
  induction l with
  | nil => simp
  | cons c t ih =>
    by_cases h : p c <;> simp [List.countP_cons, h, ih] <;> omega

theorem sum_map_one_eq_length {γ : Type} :
    ∀ l : List γ, (l.map (fun _ => (1 : ℕ))).sum = l.length := by
  intro l
  induction l with
  | nil => simp
  | cons c t ih => simp [ih]; omega

theorem countP_le_countP_of_imp {γ : Type} (p q : γ → Bool) :
    ∀ l : List γ, (∀ a ∈ l, p a = true → q a = true) →
      l.countP p ≤ l.countP q := by
  intro l
  induction l with
  | nil => intro _; simp
  | cons c t ih =>
    intro himp
    have ht := ih (fun a ha => himp a (List.mem_cons_of_mem c ha))
    by_cases hp : p c
    · have hq := himp c (List.mem_cons_self c t) hp
      simp only [List.countP_cons, hp, hq, if_pos rfl]
      omega
    · simp only [List.countP_cons, if_neg hp]
      by_cases hq : q c <;> simp [hq] <;> omega

/-! ### Field behaviour of the shared per-record update -/

theorem statsUpdate_moderators (c : Contribution) (t : Bool) (v : StatsAcc) :
    (statsUpdate c t v).moderators = v.moderators ++ [c.moderator] := by
  unfold statsUpdate
  by_cases h1 : c.status == "unvoted" <;> by_cases h2 : c.voted_on <;>
    by_cases h3 : t <;> simp [h1, h2, h3]

theorem statsUpdate_score (c : Contribution) (t : Bool) (v : StatsAcc) :
    (statsUpdate c t v).average_score = v.average_score ++ [c.score] := by
  unfold statsUpdate
  by_cases h1 : c.status == "unvoted" <;> by_cases h2 : c.voted_on <;>
    by_cases h3 : t <;> simp [h1, h2, h3]

theorem statsUpdate_payout (c : Contribution) (t : Bool) (v : StatsAcc) :
    (statsUpdate c t v).total_payout = v.total_payout + c.total_payout := by
  unfold statsUpdate
  by_cases h1 : c.status == "unvoted" <;> by_cases h2 : c.voted_on <;>
    by_cases h3 : t <;> simp [h1, h2, h3]

theorem statsUpdate_task (c : Contribution) (t : Bool) (v : StatsAcc) :
    (statsUpdate c t v).task_requests
      = v.task_requests + (if t then 1 else 0) := by
  unfold statsUpdate
  by_cases h1 : c.status == "unvoted" <;> by_cases h2 : c.voted_on <;>
    by_cases h3 : t <;> simp [h1, h2, h3]

theorem statsUpdate_unvoted (c : Contribution) (t : Bool) (v : StatsAcc) :
    (statsUpdate c t v).unvoted
      = v.unvoted + (if c.status == "unvoted" then 1 else 0) := by
  unfold statsUpdate
  by_cases h1 : c.status == "unvoted" <;> by_cases h2 : c.voted_on <;>
    by_cases h3 : t <;> simp [h1, h2, h3]

theorem statsUpdate_voted (c : Contribution) (t : Bool) (v : StatsAcc) :
    (statsUpdate c t v).voted
      = v.voted + (if (!(c.status == "unvoted")) && c.voted_on then 1
                   else 0) := by
  unfold statsUpdate
  by_cases h1 : c.status == "unvoted" <;> by_cases h2 : c.voted_on <;>
    by_cases h3 : t <;> simp [h1, h2, h3]

theorem statsUpdate_not_voted (c : Contribution) (t : Bool) (v : StatsAcc) :
    (statsUpdate c t v).not_voted
      = v.not_voted + (if (c.status == "unvoted") || !c.voted_on then 1
                       else 0) := by
  unfold statsUpdate
  by_cases h1 : c.status == "unvoted" <;> by_cases h2 : c.voted_on <;>
    by_cases h3 : t <;> simp [h1, h2, h3]

theorem statsUpdate_reviewed (c : Contribution) (t : Bool) (v : StatsAcc) :
    (statsUpdate c t v).voted + (statsUpdate c t v).not_voted
      = (v.voted + v.not_voted) + 1 := by
  unfold statsUpdate
  by_cases h1 : c.status == "unvoted" <;> by_cases h2 : c.voted_on <;>
    by_cases h3 : t <;> simp [h1, h2, h3] <;> omega

/-! ### Moderator reducer characterization -/

theorem selOf_mod (m : String) (c : Contribution) :
    selOf modKey m c
      = (!(c.status == "unreviewed") && (!(c.moderator == "BANNED")
          && (c.moderator == m))) := by
  unfold selOf modKey
  by_cases h1 : c.status == "unreviewed" <;>
    by_cases h2 : c.moderator == "BANNED" <;> simp [h1, h2]

theorem updOf_mod (c : Contribution) (m : String)
    (hsel : selOf modKey m c = true) (v : ModAcc) :
    updOf modKey c v = { v with category := v.category ++ [c.category],
                                average_score := v.average_score ++ [c.score] } := by
  unfold selOf at hsel
  unfold updOf modKey at *
  by_cases h1 : c.status == "unreviewed" <;>
    by_cases h2 : c.moderator == "BANNED" <;> simp [h1, h2] at hsel ⊢

theorem modAgg_category (cs : List Contribution) (m : String) :
    (applyAll modKey m {} cs).category
      = (cs.filter (selOf modKey m)).map (fun c => c.category) := by
  unfold applyAll
  have h := foldl_field_snoc (updOf modKey) (fun v => v.category)
    (fun c => c.category) (cs.filter (selOf modKey m)) {}
    (fun c hc x => by
      rw [updOf_mod c m (List.of_mem_filter hc) x])
  simpa using h

theorem modAgg_score (cs : List Contribution) (m : String) :
    (applyAll modKey m {} cs).average_score
      = (cs.filter (selOf modKey m)).map (fun c => c.score) := by
  unfold applyAll
  have h := foldl_field_snoc (updOf modKey) (fun v => v.average_score)
    (fun c => c.score) (cs.filter (selOf modKey m)) {}
    (fun c hc x => by
      rw [updOf_mod c m (List.of_mem_filter hc) x])
  simpa using h

theorem mod_filter_char (cs : List Contribution) (m : String) :
    (moderator_statistics cs).filter (fun b => b.moderator == m) =
      if (cs.filter (selOf modKey m)).isEmpty then []
      else [{ moderator := m,
              category :=
                counter ((cs.filter (selOf modKey m)).map (fun c => c.category)),
              average_score :=
                average ((cs.filter (selOf modKey m)).map (fun c => c.score)) }] := by
  unfold moderator_statistics
  rw [List.filter_map]
  have hpred : ((fun b : ModBucket => b.moderator == m) ∘
      (fun p : String × ModAcc =>
        ({ moderator := p.1, category := counter p.2.category,
           average_score := average p.2.average_score } : ModBucket)))
      = fun p : String × ModAcc => p.1 == m := rfl
  rw [hpred, foldUpsert_filter_nil modKey {} cs [] m (by simp)]
  by_cases hemp : (cs.filter (selOf modKey m)).isEmpty
  · simp [hemp]
  · simp only [hemp, Bool.false_eq_true, if_false, List.map_cons, List.map_nil]
    rw [modAgg_category, modAgg_score]

/-! ### Category reducer characterization -/

theorem selOf_cat (k : String) (c : Contribution) :
    selOf catKeyJ k c
      = (!(c.status == "unreviewed") &&
          match normalizeCategory c.category with
          | some (k', _) => k' == k
          | none => false) := by
  unfold selOf catKeyJ catKey
  by_cases h1 : c.status == "unreviewed"
  · simp [h1]
  · rcases hn : normalizeCategory c.category with _ | ⟨k', t⟩ <;> simp [h1, hn]

theorem updOf_cat (c : Contribution) (k : String)
    (hsel : selOf catKeyJ k c = true) (v : StatsAcc) :
    updOf catKeyJ c v = statsUpdate c (catFlag c) v := by
  unfold selOf at hsel
  unfold updOf catFlag catKeyJ catKey at *
  by_cases h1 : c.status == "unreviewed"
  · simp [h1] at hsel
  · rcases hn : normalizeCategory c.category with _ | ⟨k', t⟩ <;>
      simp [h1, hn] at hsel ⊢

theorem category_statistics_some (cs : List Contribution)
    (out : List CatBucket) (h : category_statistics cs = some out) :
    out = (foldUpsert catKeyJ {} [] cs).map finalizeCat ∧
      ∀ c ∈ cs, catKey c ≠ none := by
  unfold category_statistics at h
  rcases hE : foldUpsertE catKey {} [] cs with _ | assoc
  · rw [hE] at h; exact absurd h (by simp)
  · rw [hE] at h
    have hout : out = assoc.map finalizeCat := by
      simpa using h.symm
    have hassoc := foldUpsertE_some catKey {} cs [] assoc hE
    constructor
    · rw [hout, hassoc]
      rfl
    · exact foldUpsertE_some_nofail catKey {} cs [] assoc hE

theorem cat_bucket_mem (cs : List Contribution) (out : List CatBucket)
    (h : category_statistics cs = some out) (b : CatBucket) (hb : b ∈ out) :
    b = finalizeCat (b.category, applyAll catKeyJ b.category {} cs) ∧
      (cs.filter (selOf catKeyJ b.category)).isEmpty = false := by
  have hout := (category_statistics_some cs out h).1
  rw [hout] at hb
  obtain ⟨p, hp, hfin⟩ := List.mem_map.mp hb
  have hcat : b.category = p.1 := by rw [← hfin]; rfl
  have hmemf : p ∈ (foldUpsert catKeyJ {} [] cs).filter
      (fun q => q.1 == p.1) :=
    List.mem_filter.mpr ⟨hp, by simp⟩
  rw [foldUpsert_filter_nil catKeyJ {} cs [] p.1 (by simp)] at hmemf
  by_cases hemp : (cs.filter (selOf catKeyJ p.1)).isEmpty
  · rw [if_pos hemp] at hmemf; exact absurd hmemf (by simp)
  · rw [if_neg hemp] at hmemf
    have hpeq : p = (p.1, applyAll catKeyJ p.1 {} cs) := by
      simpa using hmemf
    refine ⟨?_, ?_⟩
    · rw [hcat, ← hfin, ← hpeq]
    · rw [hcat]; simpa using hemp

theorem cat_bucket_exists (cs : List Contribution) (out : List CatBucket)
    (h : category_statistics cs = some out) (c : Contribution) (hc : c ∈ cs)
    (k : String) (hsel : selOf catKeyJ k c = true) :
    finalizeCat (k, applyAll catKeyJ k {} cs) ∈ out := by
  have hout := (category_statistics_some cs out h).1
  have hmem : c ∈ cs.filter (selOf catKeyJ k) := List.mem_filter.mpr ⟨hc, hsel⟩
  have hne : (cs.filter (selOf catKeyJ k)).isEmpty = false := by
    rcases hl : cs.filter (selOf catKeyJ k) with _ | _
    · rw [hl] at hmem; exact absurd hmem (by simp)
    · simp
  have hchar := foldUpsert_filter_nil catKeyJ {} cs [] k (by simp)
  rw [if_neg (by simp [hne])] at hchar
  have hin : (k, applyAll catKeyJ k {} cs) ∈ foldUpsert catKeyJ {} [] cs := by
    have hm : (k, applyAll catKeyJ k {} cs)
        ∈ (foldUpsert catKeyJ {} [] cs).filter (fun q => q.1 == k) := by
      rw [hchar]; simp
    exact List.mem_of_mem_filter hm
  rw [hout]
  exact List.mem_map_of_mem finalizeCat hin

theorem catAgg_moderators (cs : List Contribution) (k : String) :
    (applyAll catKeyJ k {} cs).moderators
      = (cs.filter (selOf catKeyJ k)).map (fun c => c.moderator) := by
  unfold applyAll
  have h := foldl_field_snoc (updOf catKeyJ) (fun v => v.moderators)
    (fun c => c.moderator) (cs.filter (selOf catKeyJ k)) {}
    (fun c hc x => by
      rw [updOf_cat c k (List.of_mem_filter hc) x]; simp [statsUpdate_moderators])
  simpa using h

theorem catAgg_score (cs : List Contribution) (k : String) :
    (applyAll catKeyJ k {} cs).average_score
      = (cs.filter (selOf catKeyJ k)).map (fun c => c.score) := by
  unfold applyAll
  have h := foldl_field_snoc (updOf catKeyJ) (fun v => v.average_score)
    (fun c => c.score) (cs.filter (selOf catKeyJ k)) {}
    (fun c hc x => by
      rw [updOf_cat c k (List.of_mem_filter hc) x]; simp [statsUpdate_score])
  simpa using h

theorem catAgg_payout (cs : List Contribution) (k : String) :
    (applyAll catKeyJ k {} cs).total_payout
      = ((cs.filter (selOf catKeyJ k)).map (fun c => c.total_payout)).sum := by
  unfold applyAll
  have h := foldl_field_add (updOf catKeyJ) (fun v => v.total_payout)
    (fun c => c.total_payout) (cs.filter (selOf catKeyJ k)) {}
    (fun c hc x => by
      rw [updOf_cat c k (List.of_mem_filter hc) x]; simp [statsUpdate_payout])
  simpa using h

theorem catAgg_task (cs : List Contribution) (k : String) :
    (applyAll catKeyJ k {} cs).task_requests
      = (cs.filter (selOf catKeyJ k)).countP catFlag := by
  unfold applyAll
  have h := foldl_field_add (updOf catKeyJ) (fun v => v.task_requests)
    (fun c => if catFlag c then 1 else 0) (cs.filter (selOf catKeyJ k)) {}
    (fun c hc x => by
      rw [updOf_cat c k (List.of_mem_filter hc) x]; simp [statsUpdate_task])
  rw [sum_map_ite_eq_countP] at h
  simpa using h

theorem catAgg_unvoted (cs : List Contribution) (k : String) :
    (applyAll catKeyJ k {} cs).unvoted
      = (cs.filter (selOf catKeyJ k)).countP
          (fun c => c.status == "unvoted") := by
  unfold applyAll
  have h := foldl_field_add (updOf catKeyJ) (fun v => v.unvoted)
    (fun c => if c.status == "unvoted" then 1 else 0)
    (cs.filter (selOf catKeyJ k)) {}
    (fun c hc x => by
      rw [updOf_cat c k (List.of_mem_filter hc) x]; simp [statsUpdate_unvoted])
  rw [sum_map_ite_eq_countP] at h
  simpa using h

theorem catAgg_not_voted (cs : List Contribution) (k : String) :
    (applyAll catKeyJ k {} cs).not_voted
      = (cs.filter (selOf catKeyJ k)).countP
          (fun c => (c.status == "unvoted") || !c.voted_on) := by
  unfold applyAll
  have h := foldl_field_add (updOf catKeyJ) (fun v => v.not_voted)
    (fun c => if (c.status == "unvoted") || !c.voted_on then 1 else 0)
    (cs.filter (selOf catKeyJ k)) {}
    (fun c hc x => by
      rw [updOf_cat c k (List.of_mem_filter hc) x]; simp [statsUpdate_not_voted])
  rw [sum_map_ite_eq_countP] at h
  simpa using h

theorem catAgg_voted (cs : List Contribution) (k : String) :
    (applyAll catKeyJ k {} cs).voted
      = (cs.filter (selOf catKeyJ k)).countP
          (fun c => (!(c.status == "unvoted")) && c.voted_on) := by
  unfold applyAll
  have h := foldl_field_add (updOf catKeyJ) (fun v => v.voted)
    (fun c => if (!(c.status == "unvoted")) && c.voted_on then 1 else 0)
    (cs.filter (selOf catKeyJ k)) {}
    (fun c hc x => by
      rw [updOf_cat c k (List.of_mem_filter hc) x]; simp [statsUpdate_voted])
  rw [sum_map_ite_eq_countP] at h
  simpa using h

theorem catAgg_reviewed (cs : List Contribution) (k : String) :
    (applyAll catKeyJ k {} cs).voted + (applyAll catKeyJ k {} cs).not_voted
      = (cs.filter (selOf catKeyJ k)).length := by
  unfold applyAll
  have h := foldl_field_add (updOf catKeyJ)
    (fun v => v.voted + v.not_voted) (fun _ => 1)
    (cs.filter (selOf catKeyJ k)) {}
    (fun c hc x => by
      rw [updOf_cat c k (List.of_mem_filter hc) x]
      exact statsUpdate_reviewed c (catFlag c) x)
  rw [sum_map_one_eq_length] at h
  simpa using h

/-! ### Project reducer characterization -/

theorem selOf_proj (k : String) (c : Contribution) :
    selOf projKey k c
      = (!(c.status == "unreviewed") && (c.repository == k)) := by
  unfold selOf projKey
  by_cases h1 : c.status == "unreviewed" <;> simp [h1]

theorem updOf_proj (c : Contribution) (k : String)
    (hsel : selOf projKey k c = true) (v : StatsAcc) :
    updOf projKey c v = statsUpdate c (projFlag c) v := by
  unfold selOf at hsel
  unfold updOf projKey projFlag at *
  by_cases h1 : c.status == "unreviewed" <;> simp [h1] at hsel ⊢

theorem proj_bucket_mem (cs : List Contribution) (b : ProjBucket)
    (hb : b ∈ project_statistics cs) :
    b = finalizeProj (b.project, applyAll projKey b.project {} cs) ∧
      (cs.filter (selOf projKey b.project)).isEmpty = false := by
  unfold project_statistics at hb
  obtain ⟨p, hp, hfin⟩ := List.mem_map.mp hb
  have hcat : b.project = p.1 := by rw [← hfin]; rfl
  have hmemf : p ∈ (foldUpsert projKey {} [] cs).filter
      (fun q => q.1 == p.1) :=
    List.mem_filter.mpr ⟨hp, by simp⟩
  rw [foldUpsert_filter_nil projKey {} cs [] p.1 (by simp)] at hmemf
  by_cases hemp : (cs.filter (selOf projKey p.1)).isEmpty
  · rw [if_pos hemp] at hmemf; exact absurd hmemf (by simp)
  · rw [if_neg hemp] at hmemf
    have hpeq : p = (p.1, applyAll projKey p.1 {} cs) := by
      simpa using hmemf
    refine ⟨?_, ?_⟩
    · rw [hcat, ← hfin, ← hpeq]
    · rw [hcat]; simpa using hemp

theorem proj_bucket_exists (cs : List Contribution) (c : Contribution)
    (hc : c ∈ cs) (k : String) (hsel : selOf projKey k c = true) :
    finalizeProj (k, applyAll projKey k {} cs) ∈ project_statistics cs := by
  have hmem : c ∈ cs.filter (selOf projKey k) := List.mem_filter.mpr ⟨hc, hsel⟩
  have hne : (cs.filter (selOf projKey k)).isEmpty = false := by
    rcases hl : cs.filter (selOf projKey k) with _ | _
    · rw [hl] at hmem; exact absurd hmem (by simp)
    · simp
  have hchar := foldUpsert_filter_nil projKey {} cs [] k (by simp)
  rw [if_neg (by simp [hne])] at hchar
  have hin : (k, applyAll projKey k {} cs) ∈ foldUpsert projKey {} [] cs := by
    have hm : (k, applyAll projKey k {} cs)
        ∈ (foldUpsert projKey {} [] cs).filter (fun q => q.1 == k) := by
      rw [hchar]; simp
    exact List.mem_of_mem_filter hm
  exact List.mem_map_of_mem finalizeProj hin

theorem projAgg_moderators (cs : List Contribution) (k : String) :
    (applyAll projKey k {} cs).moderators
      = (cs.filter (selOf projKey k)).map (fun c => c.moderator) := by
  unfold applyAll
  have h := foldl_field_snoc (updOf projKey) (fun v => v.moderators)
    (fun c => c.moderator) (cs.filter (selOf projKey k)) {}
    (fun c hc x => by
      rw [updOf_proj c k (List.of_mem_filter hc) x]
      simp [statsUpdate_moderators])
  simpa using h

theorem projAgg_unvoted (cs : List Contribution) (k : String) :
    (applyAll projKey k {} cs).unvoted
      = (cs.filter (selOf projKey k)).countP
          (fun c => c.status == "unvoted") := by
  unfold applyAll
  have h := foldl_field_add (updOf projKey) (fun v => v.unvoted)
    (fun c => if c.status == "unvoted" then 1 else 0)
    (cs.filter (selOf projKey k)) {}
    (fun c hc x => by
      rw [updOf_proj c k (List.of_mem_filter hc) x]
      simp [statsUpdate_unvoted])
  rw [sum_map_ite_eq_countP] at h
  simpa using h

theorem projAgg_not_voted (cs : List Contribution) (k : String) :
    (applyAll projKey k {} cs).not_voted
      = (cs.filter (selOf projKey k)).countP
          (fun c => (c.status == "unvoted") || !c.voted_on) := by
  unfold applyAll
  have h := foldl_field_add (updOf projKey) (fun v => v.not_voted)
    (fun c => if (c.status == "unvoted") || !c.voted_on then 1 else 0)
    (cs.filter (selOf projKey k)) {}
    (fun c hc x => by
      rw [updOf_proj c k (List.of_mem_filter hc) x]
      simp [statsUpdate_not_voted])
  rw [sum_map_ite_eq_countP] at h
  simpa using h

theorem projAgg_reviewed (cs : List Contribution) (k : String) :
    (applyAll projKey k {} cs).voted + (applyAll projKey k {} cs).not_voted
      = (cs.filter (selOf projKey k)).length := by
  unfold applyAll
  have h := foldl_field_add (updOf projKey)
    (fun v => v.voted + v.not_voted) (fun _ => 1)
    (cs.filter (selOf projKey k)) {}
    (fun c hc x => by
      rw [updOf_proj c k (List.of_mem_filter hc) x]
      exact statsUpdate_reviewed c (projFlag c) x)
  rw [sum_map_one_eq_length] at h
  simpa using h

/-! ### String facts about the key normalization -/

theorem isPre_append (a r : List Char) : isPre a (a ++ r) = true := by
  induction a with
  | nil => rfl
  | cons c t ih => simp [isPre, ih]

theorem hasSub_of_isPre (sub s : List Char) (h : isPre sub s = true) :
    hasSub sub s = true := by
  cases s with
  | nil => simpa [hasSub] using h
  | cons c t => simp [hasSub, h]

theorem splitList_no_sep (sep : List Char) (hsep : sep ≠ []) :
    ∀ s : List Char, hasSub sep s = false → splitList sep s = [s] := by
  intro s
  induction s with
  | nil => intro _; simp [splitList]
  | cons c t ih =>
    intro h
    have hp : isPre sep (c :: t) = false := by
      by_contra hc
      simp only [Bool.not_eq_false] at hc
      rw [hasSub, hc] at h
      simp at h
    have ht : hasSub sep t = false := by
      by_contra hc
      simp only [Bool.not_eq_false] at hc
      rw [hasSub, hc] at h
      simp at h
    rw [splitList, if_neg hsep]
    rw [if_neg (by simp [hp])]
    rw [ih ht]

theorem splitList_sep_append (sep r : List Char) (hsep : sep ≠ []) :
    splitList sep (sep ++ r) = [] :: splitList sep r := by
  rcases sep with _ | ⟨c, s'⟩
  · exact absurd rfl hsep
  · show splitList (c :: s') (c :: (s' ++ r)) = _
    rw [splitList]
    rw [if_neg (by simp)]
    rw [if_pos (by simpa using isPre_append (c :: s') r)]
    have hdrop : (s' ++ r).drop ((c :: s').length - 1) = r := by
      simpa using List.drop_left s' r
    rw [hdrop]

theorem normalizeCategory_single (r : String)
    (h : hasSub "task-".data r.data = false) :
    normalizeCategory ("task-" ++ r) = some (r, true) := by
  have hdata : ("task-" ++ r).data = "task-".data ++ r.data := rfl
  have htask : hasSub "task".data ("task-".data ++ r.data) = true := by
    have heq : "task-".data ++ r.data = "task".data ++ ('-' :: r.data) := rfl
    rw [heq]
    exact hasSub_of_isPre _ _ (isPre_append "task".data ('-' :: r.data))
  have hsplit : splitList "task-".data ("task-".data ++ r.data)
      = [[], r.data] := by
    rw [splitList_sep_append "task-".data r.data (by simp),
        splitList_no_sep "task-".data (by simp) r.data h]
  unfold normalizeCategory
  rw [hdata, if_pos htask, hsplit]

theorem normalizeCategory_plain (cat : String)
    (h : hasSub "task".data cat.data = false) :
    normalizeCategory cat = some (cat, false) := by
  unfold normalizeCategory
  rw [if_neg (by simp [h])]

/-! ### Counter membership -/

theorem counter_mem (x : String) (l : List String) (hx : x ∈ l) :
    (x, (l.filter (fun y => y == x)).length) ∈ counter l ∧
      0 < (l.filter (fun y => y == x)).length := by
  have hsel : ∀ y : String,
      selOf (fun z : String => some (z, (· + 1 : ℕ → ℕ))) x y = (y == x) := by
    intro y; rfl
  have hmem : x ∈ l.filter
      (selOf (fun z : String => some (z, (· + 1 : ℕ → ℕ))) x) :=
    List.mem_filter.mpr ⟨hx, by rw [hsel]; simp⟩
  have hne : (l.filter
      (selOf (fun z : String => some (z, (· + 1 : ℕ → ℕ))) x)).isEmpty
        = false := by
    rcases hl : l.filter (selOf (fun z : String => some (z, (· + 1 : ℕ → ℕ))) x)
      with _ | _
    · rw [hl] at hmem; exact absurd hmem (by simp)
    · simp
  have happ : applyAll (fun z : String => some (z, (· + 1 : ℕ → ℕ))) x 0 l
      = (l.filter (fun y => y == x)).length := by
    unfold applyAll
    have h := foldl_field_add
      (updOf (fun z : String => some (z, (· + 1 : ℕ → ℕ))))
      (fun n : ℕ => n) (fun _ => 1)
      (l.filter (selOf (fun z : String => some (z, (· + 1 : ℕ → ℕ))) x)) 0
      (fun c _ n => rfl)
    rw [sum_map_one_eq_length] at h
    simp only [List.filter_congr (fun y _ => hsel y)] at h ⊢
    simpa using h
  have hchar := foldUpsert_filter_nil
    (fun z : String => some (z, (· + 1 : ℕ → ℕ))) 0 l [] x (by simp)
  rw [if_neg (by simp [hne])] at hchar
  constructor
  · have hm : (x, (l.filter (fun y => y == x)).length)
        ∈ (counter l).filter (fun q => q.1 == x) := by
      unfold counter
      rw [hchar, happ]
      simp
    exact List.mem_of_mem_filter hm
  · have : x ∈ l.filter (fun y => y == x) := by
      simpa [List.filter_congr (fun y _ => hsel y)] using hmem
    exact List.length_pos.mpr (by
      intro hnil
      rw [hnil] at this
      exact absurd this (by simp))

/-! ### The two pure filters -/

theorem foldl_append_filter {γ : Type} (p : γ → Bool) :
    ∀ (l : List γ) (acc : List γ),
      l.foldl (fun a c => if p c then a ++ [c] else a) acc
        = acc ++ l.filter p := by
  intro l
  induction l with
  | nil => intro acc; simp
  | cons c t ih =>
    intro acc
    rw [List.foldl_cons]
    by_cases h : p c
    · rw [if_pos h, ih (acc ++ [c]), List.filter_cons_of_pos (by simp [h])]
      simp
    · rw [if_neg (by simp [h]), ih acc,
          List.filter_cons_of_neg (by simp [h])]

/-! ### Concrete evaluations of the key normalization -/

theorem normalizeCategory_task : normalizeCategory "task" = none := by
  have h1 : hasSub "task".data ("task" : String).data = true := by decide
  have h2 : splitList "task-".data ("task" : String).data
      = [("task" : String).data] :=
    splitList_no_sep "task-".data (by decide) _ (by decide)
  unfold normalizeCategory
  rw [if_pos h1, h2]

theorem normalizeCategory_tta :
    normalizeCategory "task-task-a" = some ("", true) := by
  have hdata : ("task-task-a" : String).data
      = "task-".data ++ ("task-a" : String).data := by decide
  have hdata2 : ("task-a" : String).data
      = "task-".data ++ ("a" : String).data := by decide
  have h1 : hasSub "task".data ("task-task-a" : String).data = true := by
    decide
  have hsplit : splitList "task-".data ("task-task-a" : String).data
      = [[], [], ("a" : String).data] := by
    rw [hdata, splitList_sep_append _ _ (by decide), hdata2,
        splitList_sep_append _ _ (by decide),
        splitList_no_sep "task-".data (by decide) _ (by decide)]
  unfold normalizeCategory
  rw [if_pos h1, hsplit]

theorem normalizeCategory_taskdev :
    normalizeCategory "task-dev" = some ("dev", true) := by
  have h : ("task-dev" : String) = "task-" ++ "dev" := by decide
  rw [h, normalizeCategory_single "dev" (by decide)]

theorem cat_stats_single (c : Contribution) (k : String) (t : Bool)
    (hst : (c.status == "unreviewed") = false)
    (hn : normalizeCategory c.category = some (k, t)) :
    category_statistics [c] = some [finalizeCat (k, statsUpdate c t {})] := by
  unfold category_statistics
  have hk : catKey c = some (some (k, statsUpdate c t)) := by
    simp [catKey, hst, hn]
  simp [foldUpsertE, hk, upsert]

theorem cat_stats_single_none (c : Contribution)
    (hst : (c.status == "unreviewed") = false)
    (hn : normalizeCategory c.category = none) :
    category_statistics [c] = none := by
  unfold category_statistics
  have hk : catKey c = none := by simp [catKey, hst, hn]
  simp [foldUpsertE, hk]

theorem proj_stats_single (c : Contribution)
    (hst : (c.status == "unreviewed") = false) :
    project_statistics [c]
      = [finalizeProj (c.repository, statsUpdate c (projFlag c) {})] := by
  unfold project_statistics
  have hk : projKey c = some (c.repository, statsUpdate c (projFlag c)) := by
    simp [projKey, hst, projFlag]
  simp [foldUpsert, hk, upsert]

/-! ### The claims -/

/-- C9: the safe-average helper returns the arithmetic mean of its input,
returns 0 on the empty input (the caught StatisticsError), and in particular
average [] = 0, average [x] = x, and average [2,4,6] = 4. -/
theorem claim_c9 :
    (∀ l : List ℚ, l ≠ [] → average l = l.sum / l.length)
    ∧ average ([] : List ℚ) = 0
    ∧ (∀ x : ℚ, average [x] = x)
    ∧ average [2, 4, 6] = 4 := by
  refine ⟨?_, rfl, ?_, by norm_num [average]⟩
  · intro l hl
    unfold average
    rw [if_neg (by simpa using hl)]
  · intro x
    simp [average]

/-- Witness for C9: the mean clause applied at the concrete input [5]. -/
theorem claim_c9_witness :
    average [(5 : ℚ)] = [(5 : ℚ)].sum / ([(5 : ℚ)].length : ℚ) :=
  claim_c9.1 [(5 : ℚ)] (by simp)

/-- C4: the category reducer is not total: a non-unreviewed record whose
category contains "task" but not "task-" (here the category is exactly
"task") makes the key-normalization split raise an IndexError (embedded as
the none result) instead of producing statistics. -/
theorem claim_c4 :
    category_statistics [{ baseC with category := "task" }] = none
    ∧ ({ baseC with category := "task" } : Contribution).status ≠ "unreviewed"
    ∧ hasSub "task".data
        ({ baseC with category := "task" } : Contribution).category.data = true
    ∧ hasSub "task-".data
        ({ baseC with category := "task" } : Contribution).category.data
          = false :=
  ⟨cat_stats_single_none _ (by decide) normalizeCategory_task,
   by decide, by decide, by decide⟩

/-- C8: the staff-pick filter returns exactly the records with
staff_picked = true, unmodified and in their original relative order
(it is the List.filter on that flag). -/
theorem claim_c8 :
    ∀ cs : List Contribution,
      staff_pick_statistics cs = cs.filter (fun c => c.staff_picked) := by
  intro cs
  unfold staff_pick_statistics
  rw [foldl_append_filter (fun c => c.staff_picked) cs []]
  simp

/-- C7: the task-request filter returns exactly the records whose category
contains the substring "task", regardless of status; in particular the
unreviewed record taskEx (category "task-ideas") appears in its output while
the category reducer, run on the same input, produces no bucket at all. -/
theorem claim_c7 :
    (∀ cs : List Contribution,
      task_request_statistics cs
        = cs.filter (fun c => hasSub "task".data c.category.data))
    ∧ (∀ cs : List Contribution, ∀ c : Contribution,
        c ∈ task_request_statistics cs
          ↔ c ∈ cs ∧ hasSub "task".data c.category.data = true)
    ∧ taskEx ∈ task_request_statistics [taskEx]
    ∧ category_statistics [taskEx] = some [] := by
  have hfil : ∀ cs : List Contribution,
      task_request_statistics cs
        = cs.filter (fun c => hasSub "task".data c.category.data) := by
    intro cs
    unfold task_request_statistics
    rw [foldl_append_filter (fun c => hasSub "task".data c.category.data) cs []]
    simp
  refine ⟨hfil, ?_, by decide, by decide⟩
  intro cs c
  rw [hfil cs]
  exact List.mem_filter

/-- C6: in the shared per-record update applied by both the category and the
project loop bodies, each counted (non-unreviewed) record increments exactly
one vote-status outcome, in priority order: status "unvoted" increments both
unvoted and not_voted; otherwise voted_on increments voted; otherwise
not_voted is incremented. -/
theorem claim_c6 :
    ∀ (c : Contribution) (t : Bool) (v : StatsAcc), c.status ≠ "unreviewed" →
      ((c.status = "unvoted" →
          (statsUpdate c t v).unvoted = v.unvoted + 1
          ∧ (statsUpdate c t v).not_voted = v.not_voted + 1
          ∧ (statsUpdate c t v).voted = v.voted)
       ∧ (c.status ≠ "unvoted" → c.voted_on = true →
          (statsUpdate c t v).voted = v.voted + 1
          ∧ (statsUpdate c t v).not_voted = v.not_voted
          ∧ (statsUpdate c t v).unvoted = v.unvoted)
       ∧ (c.status ≠ "unvoted" → c.voted_on = false →
          (statsUpdate c t v).not_voted = v.not_voted + 1
          ∧ (statsUpdate c t v).voted = v.voted
          ∧ (statsUpdate c t v).unvoted = v.unvoted)) := by
  intro c t v _
  refine ⟨?_, ?_, ?_⟩
  · intro h1
    rw [statsUpdate_unvoted, statsUpdate_not_voted, statsUpdate_voted]
    simp [h1]
  · intro h1 h2
    rw [statsUpdate_unvoted, statsUpdate_not_voted, statsUpdate_voted]
    simp [h1, h2]
  · intro h1 h2
    rw [statsUpdate_unvoted, statsUpdate_not_voted, statsUpdate_voted]
    simp [h1, h2]

/-- Witness for C6: the unvoted branch at a concrete record. -/
theorem claim_c6_witness :
    (statsUpdate unvEx true {}).unvoted = ({} : StatsAcc).unvoted + 1
    ∧ (statsUpdate unvEx true {}).not_voted = ({} : StatsAcc).not_voted + 1
    ∧ (statsUpdate unvEx true {}).voted = ({} : StatsAcc).voted :=
  (claim_c6 unvEx true {} (by decide)).1 (by decide)

/-- C5: the moderator reducer excludes unreviewed records and records of the
BANNED moderator, groups the rest by moderator accumulating scores and a
category frequency count, finalizes average_score with the safe average
(stated as: for every moderator name m, the output buckets for m are exactly
the one bucket built from the kept records of m, when any exist); and on the
spec example input the output is the single bucket for B with
average_score 8. -/
theorem claim_c5 :
    (∀ (cs : List Contribution) (m : String),
      (moderator_statistics cs).filter (fun b => b.moderator == m)
        = if (cs.filter (fun c => !(c.status == "unreviewed")
              && (!(c.moderator == "BANNED") && (c.moderator == m)))).isEmpty
          then []
          else [{ moderator := m,
                  category := counter ((cs.filter (fun c =>
                    !(c.status == "unreviewed")
                      && (!(c.moderator == "BANNED")
                        && (c.moderator == m)))).map (fun c => c.category)),
                  average_score := average ((cs.filter (fun c =>
                    !(c.status == "unreviewed")
                      && (!(c.moderator == "BANNED")
                        && (c.moderator == m)))).map (fun c => c.score)) }])
    ∧ moderator_statistics [modEx1, modEx2, baseC]
        = [{ moderator := "B", category := [("c1", 1)],
             average_score := 8 }] := by
  constructor
  · intro cs m
    have hfc : cs.filter (selOf modKey m) = cs.filter (fun c =>
        !(c.status == "unreviewed") && (!(c.moderator == "BANNED")
          && (c.moderator == m))) :=
      List.filter_congr (fun c _ => selOf_mod m c)
    rw [mod_filter_char, hfc]
  · have h1 : modKey modEx1 = none := rfl
    have h2 : modKey modEx2 = none := rfl
    have h3 : modKey baseC = some ("B", fun v =>
        { v with category := v.category ++ ["c1"],
                 average_score := v.average_score ++ [8] }) := rfl
    unfold moderator_statistics
    simp only [foldUpsert, h1, h2, h3, upsert, List.map_cons, List.map_nil]
    have hcnt : counter ["c1"] = [("c1", 1)] := by decide
    have havg : average [8] = (8 : ℚ) := by norm_num [average]
    simp [hcnt, havg]

/-- C2: every bucket of the category reducer (on a run that returns) and of
the project reducer satisfies reviewed = voted + not_voted and
unvoted <= not_voted. -/
theorem claim_c2 :
    (∀ (cs : List Contribution) (out : List CatBucket),
      category_statistics cs = some out → ∀ b ∈ out,
        b.reviewed = b.voted + b.not_voted ∧ b.unvoted ≤ b.not_voted)
    ∧ (∀ cs : List Contribution, ∀ b ∈ project_statistics cs,
        b.reviewed = b.voted + b.not_voted ∧ b.unvoted ≤ b.not_voted) := by
  constructor
  · intro cs out h b hb
    obtain ⟨hbeq, _⟩ := cat_bucket_mem cs out h b hb
    constructor
    · rw [hbeq]; rfl
    · rw [hbeq]
      show (applyAll catKeyJ b.category {} cs).unvoted
        ≤ (applyAll catKeyJ b.category {} cs).not_voted
      rw [catAgg_unvoted, catAgg_not_voted]
      exact countP_le_countP_of_imp _ _ _ (fun c _ hp => by simp [hp])
  · intro cs b hb
    obtain ⟨hbeq, _⟩ := proj_bucket_mem cs b hb
    constructor
    · rw [hbeq]; rfl
    · rw [hbeq]
      show (applyAll projKey b.project {} cs).unvoted
        ≤ (applyAll projKey b.project {} cs).not_voted
      rw [projAgg_unvoted, projAgg_not_voted]
      exact countP_le_countP_of_imp _ _ _ (fun c _ hp => by simp [hp])

/-- Witness for C2: the project reducer on the single record baseC. -/
theorem claim_c2_witness :
    (finalizeProj ("repo", statsUpdate baseC false {})).reviewed
      = (finalizeProj ("repo", statsUpdate baseC false {})).voted
        + (finalizeProj ("repo", statsUpdate baseC false {})).not_voted
    ∧ (finalizeProj ("repo", statsUpdate baseC false {})).unvoted
      ≤ (finalizeProj ("repo", statsUpdate baseC false {})).not_voted :=
  claim_c2.2 [baseC] (finalizeProj ("repo", statsUpdate baseC false {}))
    (by rw [proj_stats_single baseC (by decide)]
        exact List.mem_singleton.mpr rfl)

/-- C3: every produced bucket of the category and project reducers has
reviewed >= 1 (a bucket only exists because some counted record incremented
voted or not_voted), so the unguarded average_payout division
total_payout / reviewed never has a zero divisor. -/
theorem claim_c3 :
    (∀ (cs : List Contribution) (out : List CatBucket),
      category_statistics cs = some out → ∀ b ∈ out,
        1 ≤ b.reviewed
        ∧ b.average_payout = b.total_payout / (b.reviewed : ℚ))
    ∧ (∀ cs : List Contribution, ∀ b ∈ project_statistics cs,
        1 ≤ b.reviewed
        ∧ b.average_payout = b.total_payout / (b.reviewed : ℚ)) := by
  constructor
  · intro cs out h b hb
    obtain ⟨hbeq, hne⟩ := cat_bucket_mem cs out h b hb
    constructor
    · rw [hbeq]
      show 1 ≤ (applyAll catKeyJ b.category {} cs).voted
        + (applyAll catKeyJ b.category {} cs).not_voted
      rw [catAgg_reviewed]
      rcases hl : cs.filter (selOf catKeyJ b.category) with _ | ⟨x, xs⟩
      · rw [hl] at hne; simp at hne
      · simp
    · rw [hbeq]; rfl
  · intro cs b hb
    obtain ⟨hbeq, hne⟩ := proj_bucket_mem cs b hb
    constructor
    · rw [hbeq]
      show 1 ≤ (applyAll projKey b.project {} cs).voted
        + (applyAll projKey b.project {} cs).not_voted
      rw [projAgg_reviewed]
      rcases hl : cs.filter (selOf projKey b.project) with _ | ⟨x, xs⟩
      · rw [hl] at hne; simp at hne
      · simp
    · rw [hbeq]; rfl

/-- Witness for C3: the project reducer on the single record baseC. -/
theorem claim_c3_witness :
    1 ≤ (finalizeProj ("repo", statsUpdate baseC false {})).reviewed
    ∧ (finalizeProj ("repo", statsUpdate baseC false {})).average_payout
      = (finalizeProj ("repo", statsUpdate baseC false {})).total_payout
        / ((finalizeProj ("repo", statsUpdate baseC false {})).reviewed : ℚ) :=
  claim_c3.2 [baseC] (finalizeProj ("repo", statsUpdate baseC false {}))
    (by rw [proj_stats_single baseC (by decide)]
        exact List.mem_singleton.mpr rfl)

/-- C10: unlike the moderator reducer, the category and project reducers do
not exclude BANNED records: a counted record with moderator BANNED is counted
in its category bucket and its project bucket, and BANNED appears with a
positive count in the moderator frequency counts of those buckets. -/
theorem claim_c10 :
    (∀ (cs : List Contribution) (out : List CatBucket),
      category_statistics cs = some out →
      ∀ c ∈ cs, c.status ≠ "unreviewed" → c.moderator = "BANNED" →
      ∀ k t, normalizeCategory c.category = some (k, t) →
      ∃ b ∈ out, b.category = k
        ∧ ∃ n, ("BANNED", n) ∈ b.moderators ∧ 0 < n)
    ∧ (∀ cs : List Contribution, ∀ c ∈ cs,
        c.status ≠ "unreviewed" → c.moderator = "BANNED" →
        ∃ b ∈ project_statistics cs, b.project = c.repository
          ∧ ∃ n, ("BANNED", n) ∈ b.moderators ∧ 0 < n) := by
  constructor
  · intro cs out h c hc hst hmod k t hn
    have hsel : selOf catKeyJ k c = true := by
      rw [selOf_cat]
      simp [hst, hn]
    refine ⟨finalizeCat (k, applyAll catKeyJ k {} cs),
            cat_bucket_exists cs out h c hc k hsel, rfl, ?_⟩
    show ∃ n, ("BANNED", n)
        ∈ counter ((applyAll catKeyJ k {} cs).moderators) ∧ 0 < n
    have hmember : "BANNED" ∈ (applyAll catKeyJ k {} cs).moderators := by
      rw [catAgg_moderators]
      exact List.mem_map.mpr ⟨c, List.mem_filter.mpr ⟨hc, hsel⟩, hmod⟩
    obtain ⟨hmem2, hpos⟩ := counter_mem "BANNED" _ hmember
    exact ⟨_, hmem2, hpos⟩
  · intro cs c hc hst hmod
    have hsel : selOf projKey c.repository c = true := by
      rw [selOf_proj]
      simp [hst]
    refine ⟨finalizeProj (c.repository, applyAll projKey c.repository {} cs),
            proj_bucket_exists cs c hc c.repository hsel, rfl, ?_⟩
    show ∃ n, ("BANNED", n)
        ∈ counter ((applyAll projKey c.repository {} cs).moderators) ∧ 0 < n
    have hmember : "BANNED"
        ∈ (applyAll projKey c.repository {} cs).moderators := by
      rw [projAgg_moderators]
      exact List.mem_map.mpr ⟨c, List.mem_filter.mpr ⟨hc, hsel⟩, hmod⟩
    obtain ⟨hmem2, hpos⟩ := counter_mem "BANNED" _ hmember
    exact ⟨_, hmem2, hpos⟩

/-- Witness for C10: the project reducer on the single BANNED record. -/
theorem claim_c10_witness :
    ∃ b ∈ project_statistics [bannedEx], b.project = bannedEx.repository
      ∧ ∃ n, ("BANNED", n) ∈ b.moderators ∧ 0 < n :=
  claim_c10.2 [bannedEx] bannedEx (by decide) (by decide) (by decide)

theorem countP_filter_own {γ : Type} (p q : γ → Bool) :
    ∀ l : List γ, (l.filter q).countP p = l.countP (fun a => p a && q a) := by
  intro l
  induction l with
  | nil => simp
  | cons c t ih =>
    by_cases hq : q c
    · rw [List.filter_cons_of_pos (by simp [hq])]
      by_cases hp : p c <;>
        simp [List.countP_cons, hp, hq, ih]
    · rw [List.filter_cons_of_neg (by simp [hq])]
      simp [List.countP_cons, hq, ih]

theorem countP_congr_own {γ : Type} (p q : γ → Bool) :
    ∀ l : List γ, (∀ a ∈ l, p a = q a) → l.countP p = l.countP q := by
  intro l
  induction l with
  | nil => intro _; simp
  | cons c t ih =>
    intro hpt
    rw [List.countP_cons, List.countP_cons,
        ih (fun a ha => hpt a (List.mem_cons_of_mem c ha)),
        hpt c (List.mem_cons_self c t)]

/-- C1 counterexample: the category "task-task-a" contains "task-", and the
substring after its first "task-" prefix is "task-a"; but the reducer groups
the record under the key "" (the split segment between the first two
occurrences of "task-"), not under "task-a". -/
theorem claim_c1_cex :
    (category_statistics [{ baseC with category := "task-task-a" }]).map
        (List.map (fun b => b.category)) = some [""]
    ∧ (category_statistics [{ baseC with category := "task-task-a" }]).map
        (List.map (fun b => b.category)) ≠ some ["task-a"] := by
  have heval : category_statistics [{ baseC with category := "task-task-a" }]
      = some [finalizeCat ("",
          statsUpdate { baseC with category := "task-task-a" } true {})] :=
    cat_stats_single _ "" true (by decide) normalizeCategory_tta
  rw [heval]
  constructor
  · rfl
  · intro hcontra
    simp [finalizeCat] at hcontra

/-- C1 (amended): on a run of the category reducer that returns, every
non-unreviewed record is grouped under its normalized key (the bucket with
that key exists), and each bucket's task-requests counter counts exactly the
non-unreviewed records normalizing to that key with the task flag set; the
normalized key of a category of the form "task-" ++ r with no further
"task-" occurrence in r is r itself with the task flag (in general it is
split element 1, the segment between the first two occurrences of "task-"),
and a category not containing "task" is its own key with no task flag; a
record whose category does not contain "task-" is grouped under its category
unchanged (a record whose category contains "task" but not "task-" instead
aborts the reducer, see C4). -/
theorem claim_c1 :
    (∀ (cs : List Contribution) (out : List CatBucket),
      category_statistics cs = some out →
      ∀ c ∈ cs, c.status ≠ "unreviewed" →
        ∀ k t, normalizeCategory c.category = some (k, t) →
          ∃ b ∈ out, b.category = k)
    ∧ (∀ (cs : List Contribution) (out : List CatBucket),
        category_statistics cs = some out →
        ∀ b ∈ out, b.task_requests
          = cs.countP (fun c => !(c.status == "unreviewed")
              && decide (normalizeCategory c.category
                    = some (b.category, true))))
    ∧ (∀ r : String, hasSub "task-".data r.data = false →
        normalizeCategory ("task-" ++ r) = some (r, true))
    ∧ (∀ cat : String, hasSub "task".data cat.data = false →
        normalizeCategory cat = some (cat, false))
    ∧ (∀ (cs : List Contribution) (out : List CatBucket),
        category_statistics cs = some out →
        ∀ c ∈ cs, c.status ≠ "unreviewed" →
          hasSub "task-".data c.category.data = false →
            ∃ b ∈ out, b.category = c.category) := by
  refine ⟨?_, ?_, normalizeCategory_single, normalizeCategory_plain, ?_⟩
  · intro cs out h c hc hst k t hn
    have hsel : selOf catKeyJ k c = true := by
      rw [selOf_cat]
      simp [hn, hst]
    exact ⟨finalizeCat (k, applyAll catKeyJ k {} cs),
           cat_bucket_exists cs out h c hc k hsel, rfl⟩
  · intro cs out h b hb
    obtain ⟨hbeq, _⟩ := cat_bucket_mem cs out h b hb
    have htask : b.task_requests
        = (cs.filter (selOf catKeyJ b.category)).countP catFlag := by
      conv_lhs => rw [hbeq]
      exact catAgg_task cs b.category
    rw [htask, countP_filter_own]
    apply countP_congr_own
    intro c _
    rw [selOf_cat]
    rcases hn : normalizeCategory c.category with _ | ⟨k', t'⟩
    · simp [catFlag, hn]
    · cases t' <;> by_cases hst : (c.status == "unreviewed") = true <;>
        by_cases hk : k' = b.category <;>
        simp [catFlag, hn, hst, hk]
  · intro cs out h c hc hst hnosub
    by_cases htask : hasSub "task".data c.category.data = true
    · exfalso
      have hnone : normalizeCategory c.category = none := by
        unfold normalizeCategory
        rw [if_pos htask,
            splitList_no_sep "task-".data (by simp) c.category.data hnosub]
      refine (category_statistics_some cs out h).2 c hc ?_
      simp [catKey, hst, hnone]
    · have hn : normalizeCategory c.category = some (c.category, false) :=
        normalizeCategory_plain c.category (by simpa using htask)
      have hsel : selOf catKeyJ c.category c = true := by
        rw [selOf_cat]
        simp [hn, hst]
      exact ⟨finalizeCat (c.category, applyAll catKeyJ c.category {} cs),
             cat_bucket_exists cs out h c hc c.category hsel, rfl⟩

/-- Witness for C1: the spec example record (category "task-dev") groups
under "dev", and the normalization clause applied at "task-" ++ "dev". -/
theorem claim_c1_witness :
    (∃ b ∈ [finalizeCat ("dev", statsUpdate cTaskDev true {})],
        b.category = "dev")
    ∧ normalizeCategory ("task-" ++ "dev") = some ("dev", true) := by
  constructor
  · exact claim_c1.1 [cTaskDev]
      [finalizeCat ("dev", statsUpdate cTaskDev true {})]
      (cat_stats_single cTaskDev "dev" true (by decide)
        normalizeCategory_taskdev)
      cTaskDev (by simp) (by decide) "dev" true normalizeCategory_taskdev
  · exact claim_c1.2.2.1 "dev" (by decide)
